/-
  Verification of the smallsh command interpreter (src/main.c) against its
  natural-language specification.

  Shallow embedding: the parsing, expansion, queue, job-table and shutdown
  routines of main.c are translated into executable Lean definitions; the
  claims of the specification are settled as theorems about them.

  Conventions:
  * C strings are modelled as `List Char` (tokens) or `String` (messages).
  * The shell's process id is a parameter: `pidStr` is the decimal string
    snprintf("%d", getpid()) produces.
  * Writes into fixed C arrays are modelled explicitly so that an
    out-of-bounds index is visible (see `Cmd.argWrites`, `pushMessageQueue`).
-/
import Mathlib

namespace Smallsh

/-! ### Constants from main.c -/

/-- `#define LINELENGTH 2048` -/
def LINELENGTH : Nat := 2048

/-- `#define ARGLENGTH 513` — size of `struct command`'s `args` array. -/
def ARGLENGTH : Nat := 513

/-! ### stringReplace (main.c lines 89–159)

The C loop walks `word`; whenever `word[i] == '$' && word[i+1] == '$'` it
appends the pid string and advances the index by 2, otherwise it appends the
single character `word[i]`.  (The inner guard
`currentChar[c] != '\n' || currentChar[c] != '\0'` is a tautology, so every
character of the chosen chunk is copied.) -/

/-- Embedding of `stringReplace`: replace each left-to-right occurrence of
`$$` by `pidStr`, copying other characters through. -/
def stringReplace (pidStr : List Char) : List Char → List Char
  | [] => []
  | [c] => [c]
  | a :: b :: rest =>
    if a = '$' ∧ b = '$' then pidStr ++ stringReplace pidStr rest
    else a :: stringReplace pidStr (b :: rest)

/-- Does a character list contain the two-character marker `$$`?
(`word[i] == '$' && word[i+1] == '$'` for some `i`.) -/
def hasDD : List Char → Bool
  | [] => false
  | [_] => false
  | a :: b :: rest => (a = '$' && b = '$') || hasDD (b :: rest)

/-- `hasDD` agrees with containment of the contiguous substring
`['$','$']`. -/
theorem hasDD_iff_marker (l : List Char) :
    hasDD l = true ↔ ['$', '$'] <:+: l := by
  induction l with
  | nil =>
    constructor
    · intro h; simp [hasDD] at h
    · rintro ⟨s, t, heq⟩
      simp at heq
  | cons a l ih =>
    match l, ih with
    | [], _ =>
      constructor
      · intro h; simp [hasDD] at h
      · rintro ⟨s, t, heq⟩
        have := congrArg List.length heq
        simp [List.length_append] at this
        omega
    | b :: rest, ih =>
      constructor
      · intro h
        simp [hasDD] at h
        rcases h with ⟨ha, hb⟩ | h
        · exact ⟨[], rest, by simp [ha, hb]⟩
        · obtain ⟨s, t, heq⟩ := ih.mp h
          exact ⟨a :: s, t, by simp [heq]⟩
      · rintro ⟨s, t, heq⟩
        cases s with
        | nil =>
          simp at heq
          simp [hasDD]
          exact Or.inl ⟨heq.1.symm, heq.2.1.symm⟩
        | cons x s2 =>
          simp at heq
          have hrec : hasDD (b :: rest) = true :=
            ih.mpr ⟨s2, t, by simp [heq.2]⟩
          simp [hasDD, hrec]

/-- A word without the marker passes through `stringReplace` unchanged. -/
theorem stringReplace_of_not_hasDD (pidStr : List Char) :
    ∀ w : List Char, hasDD w = false → stringReplace pidStr w = w := by
  intro w
  induction w using stringReplace.induct pidStr with
  | case1 => intro _; rfl
  | case2 c => intro _; rfl
  | case3 a b rest hab ih =>
    intro h
    simp [hasDD] at h
    exact absurd hab.2 (h.1 hab.1)
  | case4 a b rest hab ih =>
    intro h
    simp [hasDD] at h
    simp [stringReplace, hab, ih h.2]

/-- A replacement step at the front: `stringReplace` on a marker-free prefix
`u` (not ending in `'$'`) followed by `$$` and a suffix `v` copies `u`,
substitutes `pidStr`, and continues on `v`. -/
theorem stringReplace_append_marker (pidStr : List Char) :
    ∀ u v : List Char, hasDD u = false → u.getLast? ≠ some '$' →
      stringReplace pidStr (u ++ '$' :: '$' :: v) =
        u ++ pidStr ++ stringReplace pidStr v := by
  intro u
  induction u using hasDD.induct with
  | case1 =>
    intro v _ _
    simp [stringReplace]
  | case2 c =>
    intro v _ hlast
    have hc : ¬(c = '$') := by simpa using hlast
    simp [stringReplace, hc]
  | case3 a b rest ih =>
    intro v hdd hlast
    simp [hasDD] at hdd
    have hab : ¬(a = '$' ∧ b = '$') := fun h => (hdd.1 h.1) h.2
    have hlast' : (b :: rest).getLast? ≠ some '$' := by
      simpa [List.getLast?_cons_cons] using hlast
    simp only [List.cons_append, stringReplace, if_neg hab]
    have h := ih v hdd.2 hlast'
    simp only [List.append_eq, List.cons_append, List.append_assoc] at h ⊢
    rw [h]

/-- `hasDD` ignores a leading character that is not `'$'`. -/
theorem hasDD_cons_of_ne (c : Char) (l : List Char) (hc : c ≠ '$') :
    hasDD (c :: l) = hasDD l := by
  cases l with
  | nil => simp [hasDD]
  | cons d t => simp [hasDD, hc]

/-- Prepending a `'$'`-free list preserves freedom from the marker. -/
theorem hasDD_append_of_forall_ne (a b : List Char)
    (ha : ∀ c ∈ a, c ≠ '$') (hb : hasDD b = false) :
    hasDD (a ++ b) = false := by
  induction a with
  | nil => simpa using hb
  | cons c t ih =>
    have hc : c ≠ '$' := ha c (by simp)
    rw [List.cons_append, hasDD_cons_of_ne c _ hc]
    exact ih (fun d hd => ha d (by simp [hd]))

/-- The output of `stringReplace` on a word starting with `c ≠ '$'` starts
with `c`. -/
theorem stringReplace_cons_ne (pidStr : List Char) (b : Char)
    (rest : List Char) (hb : b ≠ '$') :
    ∃ t, stringReplace pidStr (b :: rest) = b :: t := by
  cases rest with
  | nil => exact ⟨[], rfl⟩
  | cons d r =>
    refine ⟨stringReplace pidStr (d :: r), ?_⟩
    simp [stringReplace, hb]

/-- When the pid string contains no `'$'`, the output of `stringReplace`
never contains the marker `$$`. -/
theorem hasDD_stringReplace (pidStr : List Char)
    (hp : ∀ c ∈ pidStr, c ≠ '$') :
    ∀ w : List Char, hasDD (stringReplace pidStr w) = false := by
  intro w
  induction w using stringReplace.induct pidStr with
  | case1 => rfl
  | case2 c => rfl
  | case3 a b rest hab ih =>
    rw [stringReplace, if_pos hab]
    exact hasDD_append_of_forall_ne pidStr _ hp ih
  | case4 a b rest hab ih =>
    rw [stringReplace, if_neg hab]
    by_cases ha : a = '$'
    · have hb : b ≠ '$' := fun h => hab ⟨ha, h⟩
      obtain ⟨t, ht⟩ := stringReplace_cons_ne pidStr b rest hb
      rw [ht] at ih ⊢
      simp [hasDD, ha, hb] at ih ⊢
      exact ih
    · rw [hasDD_cons_of_ne a _ ha]
      exact ih

/-- `stringReplace` is idempotent when the pid string has no `'$'`. -/
theorem stringReplace_idem (pidStr : List Char)
    (hp : ∀ c ∈ pidStr, c ≠ '$') (w : List Char) :
    stringReplace pidStr (stringReplace pidStr w) = stringReplace pidStr w :=
  stringReplace_of_not_hasDD pidStr _ (hasDD_stringReplace pidStr hp w)

/-! ### isValidLine (main.c lines 63–74) -/

/-- Embedding of `isValidLine`: only the single character `line[0]` is
inspected; `'#'` and `'\n'` make the line invalid. -/
def isValidLine (firstChar : Char) : Bool :=
  if firstChar = '#' then false
  else if firstChar = '\n' then false
  else true

/-! ### Tokenization (strtok_r with delimiters space and newline) -/

/-- The delimiter set of `strtok_r(line, "  \n", &saveptr)`. -/
def isDelim (c : Char) : Bool := c = ' ' || c = '\n'

/-- `strtok_r` splitting: maximal runs of non-delimiter characters, empty
runs skipped. -/
def tokenize (line : List Char) : List (List Char) :=
  (line.splitOnP (fun c => isDelim c)).filter (fun t => !t.isEmpty)

/-! ### processInput (main.c lines 172–261)

`struct command` holds a 513-slot `args` array (`ARGLENGTH`), an input file,
an output file and the background flag.  The embedding records every store
`args[i] = v` the loop performs as a pair `(i, v)` in `argWrites`, so that a
store with `i ≥ ARGLENGTH` — outside the array — is visible. -/

/-- Embedding of `struct command` (main.c lines 46–51), with the stores into
`args` kept as an explicit write list. -/
structure Cmd where
  argWrites : List (Nat × List Char)
  inputFile : Option (List Char)
  outputFile : Option (List Char)
  isBackground : Bool
deriving Repr, DecidableEq

/-- The token `<`. -/
def ltTok : List Char := ['<']
/-- The token `>`. -/
def gtTok : List Char := ['>']
/-- The token `&`. -/
def ampTok : List Char := ['&']

/-- The defaulted null-device path (main.c lines 246–256). -/
def devNull : List Char := "/dev/null".data

/-- State after the first loop iteration of `processInput`: the first token
(after `$$`-expansion) is stored at `args[0]`, everything else is reset
(main.c lines 185–204). -/
def initCmd (pidStr : List Char) (t0 : List Char) : Cmd :=
  { argWrites := [(0, stringReplace pidStr t0)]
    inputFile := none
    outputFile := none
    isBackground := false }

/-- The token-consuming `while` loop of `processInput` (main.c lines
196–237), from the second token on.  `argPos` is `argPosition`; the guard
`argPos ≤ ARGLENGTH` is the source's `argPosition <= ARGLENGTH`. -/
def buildLoop (pidStr : List Char) : List (List Char) → Cmd → Nat → Cmd
  | [], cmd, _ => cmd
  | tok :: rest, cmd, argPos =>
    -- lines 197–200: an earlier `&` is un-set at the top of each iteration
    let cmd := { cmd with isBackground := false }
    if tok = ltTok then
      -- lines 205–212: consume the next token as the input file
      match rest with
      | [] => cmd
      | t :: rest' =>
        buildLoop pidStr rest'
          { cmd with inputFile := some (stringReplace pidStr t) } argPos
    else if tok = gtTok then
      -- lines 214–221: consume the next token as the output file
      match rest with
      | [] => cmd
      | t :: rest' =>
        buildLoop pidStr rest'
          { cmd with outputFile := some (stringReplace pidStr t) } argPos
    else if tok = ampTok then
      -- lines 223–225
      buildLoop pidStr rest { cmd with isBackground := true } argPos
    else if argPos ≤ ARGLENGTH then
      -- lines 227–232: store `args[argPosition] = stringReplace(token)`
      buildLoop pidStr rest
        { cmd with
          argWrites := cmd.argWrites ++ [(argPos, stringReplace pidStr tok)] }
        (argPos + 1)
    else
      buildLoop pidStr rest cmd argPos

/-- The post-loop fix-ups of `processInput` (main.c lines 239–257):
foreground-only mode forces `isBackground` off, then a still-backgrounded
command gets `/dev/null` for each redirection side not explicitly set. -/
def finalize (fgMode : Bool) (cmd : Cmd) : Cmd :=
  let cmd := if fgMode then { cmd with isBackground := false } else cmd
  if cmd.isBackground then
    let cmd :=
      if cmd.inputFile = none then { cmd with inputFile := some devNull }
      else cmd
    if cmd.outputFile = none then { cmd with outputFile := some devNull }
    else cmd
  else cmd

/-- `processInput` on an already-tokenized line: `NULL` (no descriptor) on
an empty token list, otherwise first token to `args[0]`, loop, fix-ups. -/
def processInputToks (pidStr : List Char) (fgMode : Bool) :
    List (List Char) → Option Cmd
  | [] => none
  | t0 :: rest =>
    some (finalize fgMode (buildLoop pidStr rest (initCmd pidStr t0) 1))

/-- Embedding of `processInput` (main.c lines 172–261). -/
def processInput (pidStr : List Char) (fgMode : Bool) (line : List Char) :
    Option Cmd :=
  processInputToks pidStr fgMode (tokenize line)

/-- The contents of the 513-slot `args` array after the recorded writes
(a write at an index `≥ ARGLENGTH` lands outside the array and is dropped
by `List.set`; such writes are the out-of-bounds stores). -/
def argsArray (cmd : Cmd) : List (Option (List Char)) :=
  cmd.argWrites.foldl (fun arr w => arr.set w.1 (some w.2))
    (List.replicate ARGLENGTH none)

/-- The program of a descriptor: the value stored at `args[0]`. -/
def progOf (cmd : Cmd) : Option (List Char) :=
  (cmd.argWrites.find? (fun w => w.1 = 0)).map (fun w => w.2)

/-- The per-line step of `main` (lines 702–728): a descriptor is built only
when the line is non-empty, shorter than `LINELENGTH`, and `isValidLine`
accepts its first byte. -/
def mainProcessLine (pidStr : List Char) (fgMode : Bool) (line : List Char) :
    Option Cmd :=
  if line.length ≠ 0 ∧ line.length < LINELENGTH ∧
      isValidLine (line.headD (Char.ofNat 0)) then
    processInput pidStr fgMode line
  else none

/-- Does `main` fork a child for this result (lines 708–721)?  `exit`,
`status` and `cd` are handled in-process; everything else goes to
`execCmd`, which forks. -/
def spawnsChild : Option Cmd → Bool
  | none => false
  | some cmd =>
    match progOf cmd with
    | none => false
    | some p =>
      if p = "exit".data ∨ p = "status".data ∨ p = "cd".data then false
      else true

/-- Does the final token reach the `&` branch of the builder loop?  True
iff the list (the tokens after the program) ends in a standalone `&` that
is not consumed as the filename operand of a `<` or `>` immediately before
it.  This is the spec-side characterization used to settle the background
flag's behaviour. -/
def lastTokenIsOperatorAmp : List (List Char) → Bool
  | [] => false
  | [t] => decide (t = ampTok)
  | t :: u :: rest =>
    if t = ltTok ∨ t = gtTok then lastTokenIsOperatorAmp rest
    else lastTokenIsOperatorAmp (u :: rest)

/-! ### Message queue (main.c lines 28–30, 412–442)

`char *msgQueue[50]` with cursor `queuePosition`.  A slot is `none` when the
C pointer is `NULL`. -/

/-- The shared state the signal handlers and shutdown touch: the 50-slot
message queue with its cursor, and the 200-slot `children` table (`0` is
the empty-slot sentinel). -/
structure ShellState where
  msgQueue : List (Option String)
  queuePosition : Nat
  children : List Int
deriving Repr, DecidableEq

/-- Embedding of `pushMessageQueue` (main.c lines 412–416): store the line
at `msgQueue[queuePosition]` and advance the cursor.  The store is only
defined while `queuePosition` indexes into the array; otherwise the C code
writes outside the 50-slot storage, modelled as `none`. -/
def pushMessageQueue (slots : List (Option String)) (pos : Nat)
    (line : String) : Option (List (Option String) × Nat) :=
  if pos < slots.length then some (slots.set pos (some line), pos + 1)
  else none

/-- Outcome `waitpid` reports for a reaped child: `WIFEXITED`, or else
signal termination. -/
inductive WStatus where
  | exited (code : Int)
  | signaled (sig : Int)
deriving Repr, DecidableEq

/-- The message `handleSIGCHLD` formats for a reaped child (main.c lines
511–515). -/
def waitMessage (p : Int) (w : WStatus) : String :=
  match w with
  | .exited n => "background pid " ++ toString p ++ " is done: exit value "
      ++ toString n ++ "\n"
  | .signaled n => "background pid " ++ toString p
      ++ " is done: terminated by signal " ++ toString n ++ "\n"

/-- The slot-clearing loop of `handleSIGCHLD` (main.c lines 518–525): zero
the first slot holding `p`, then `break`. -/
def clearChildSlot : List Int → Int → List Int
  | [], _ => []
  | c :: rest, p => if c = p then 0 :: rest else c :: clearChildSlot rest p

/-- Embedding of `handleSIGCHLD` (main.c lines 502–530).  `zombies` is the
sequence of `(pid, status)` pairs the repeated `waitpid(-1, …, WNOHANG)`
calls return before reporting that no terminated child remains; the loop
consumes them all.  A push onto a full queue is the out-of-bounds store of
`pushMessageQueue`, propagated as `none`. -/
def handleSIGCHLD (zombies : List (Int × WStatus)) (st : ShellState) :
    Option ShellState :=
  match zombies with
  | [] => some st
  | (p, w) :: rest =>
    let msg := waitMessage p w
    let children := clearChildSlot st.children p
    match pushMessageQueue st.msgQueue st.queuePosition msg with
    | none => none
    | some (q, pos) =>
      handleSIGCHLD rest
        { msgQueue := q, queuePosition := pos, children := children }

/-! ### exitShell (main.c lines 450–465) -/

/-- Externally visible actions of shutdown, in order. -/
inductive Event where
  | printMsg (s : String)
  | sendSIGTERM (p : Int)
  | exitWith (code : Nat)
deriving Repr, DecidableEq

/-- The printing loop of `clearMessageQueue` (main.c lines 429–442): every
non-`NULL` slot is written out in index order (and freed). -/
def drainSlots : List (Option String) → List String
  | [] => []
  | none :: rest => drainSlots rest
  | some s :: rest => s :: drainSlots rest

/-- The kill loop of `exitShell` (main.c lines 455–462): `kill(pid,
SIGTERM)` for every non-zero slot, in index order, without waiting. -/
def killLoop : List Int → List Int
  | [] => []
  | p :: rest => if p ≠ 0 then p :: killLoop rest else killLoop rest

/-- Embedding of `exitShell` (main.c lines 450–465): drain and print the
queue, signal the tracked children, `_exit(3)`. -/
def exitShell (st : ShellState) : List Event :=
  (drainSlots st.msgQueue).map Event.printMsg
    ++ (killLoop st.children).map Event.sendSIGTERM
    ++ [Event.exitWith 3]

/-! ### Helper lemmas about the builder -/

/-- The post-loop fix-ups change the background flag exactly by the
foreground-only override. -/
theorem finalize_isBackground (fg : Bool) (c : Cmd) :
    (finalize fg c).isBackground = (!fg && c.isBackground) := by
  unfold finalize
  cases fg <;> cases hb : c.isBackground <;>
    cases hin : c.inputFile <;> cases hout : c.outputFile <;>
    simp [hb, hin, hout]

/-- The background flag after the whole builder loop: true exactly when the
final token reaches the `&` branch (or the loop body never runs and the
flag was already set). -/
theorem buildLoop_isBackground (pidStr : List Char) :
    ∀ (toks : List (List Char)) (cmd : Cmd) (argPos : Nat),
      (buildLoop pidStr toks cmd argPos).isBackground =
        (lastTokenIsOperatorAmp toks || (toks.isEmpty && cmd.isBackground)) := by
  intro toks cmd argPos
  induction toks, cmd, argPos using buildLoop.induct pidStr with
  | case1 cmd x => simp [buildLoop, lastTokenIsOperatorAmp]
  | case2 cmd argPos =>
    simp [buildLoop, lastTokenIsOperatorAmp, ltTok, ampTok]
  | case3 cmd argPos c1 t rest' ih =>
    simp [buildLoop, lastTokenIsOperatorAmp, ih]
  | case4 cmd argPos h =>
    simp [buildLoop, lastTokenIsOperatorAmp, h, gtTok, ltTok, ampTok]
  | case5 cmd argPos c1 t rest' h ih =>
    simp [buildLoop, lastTokenIsOperatorAmp, h, ih]
  | case6 rest cmd argPos c1 hl hg ih =>
    cases rest with
    | nil => simp [buildLoop, lastTokenIsOperatorAmp, hl, hg, ih]
    | cons u r => simp [buildLoop, lastTokenIsOperatorAmp, hl, hg, ih]
  | case7 tok rest cmd argPos c1 hl hg ha hpos ih =>
    cases rest with
    | nil => simp [buildLoop, lastTokenIsOperatorAmp, hl, hg, ha, hpos, ih]
    | cons u r => simp [buildLoop, lastTokenIsOperatorAmp, hl, hg, ha, hpos, ih]
  | case8 tok rest cmd argPos c1 hl hg ha hpos ih =>
    cases rest with
    | nil => simp [buildLoop, lastTokenIsOperatorAmp, hl, hg, ha, hpos, ih]
    | cons u r => simp [buildLoop, lastTokenIsOperatorAmp, hl, hg, ha, hpos, ih]

/-! ### Claim C2 -/

/-- C2: the spec requires that an append to the already-full 50-slot
notification queue discard exactly one message and never write outside the
queue storage.  The code has no capacity check: with all 50 slots occupied
and `queuePosition = 50`, `pushMessageQueue` stores through
`msgQueue[50]`, one slot past the array — the out-of-bounds store the
embedding reports as `none` — and discards nothing.  The claim is right
and the code is wrong. -/
theorem c2_push_full_queue_overflows :
    pushMessageQueue (List.replicate 50 (some "m")) 50 "q" = none ∧
    (List.replicate 50 (some "m")).length = 50 := by decide

/-! ### Claim C5 -/

/-- C5: the expansion step replaces every left-to-right occurrence of the
marker `$$` by the pid string and leaves marker-free tokens unchanged:
(1) a token without `$$` passes through unchanged; (2) a marker occurrence
after a marker-free prefix is replaced by the pid string, and scanning
continues to the right of it; (3) `hasDD` is exactly containment of the
two-character marker. -/
theorem c5_stringReplace_replaces_all_markers (pidStr : List Char) :
    (∀ w, hasDD w = false → stringReplace pidStr w = w) ∧
    (∀ u v, hasDD u = false → u.getLast? ≠ some '$' →
      stringReplace pidStr (u ++ '$' :: '$' :: v) =
        u ++ pidStr ++ stringReplace pidStr v) ∧
    (∀ w, hasDD w = true ↔ ['$', '$'] <:+: w) :=
  ⟨stringReplace_of_not_hasDD pidStr, stringReplace_append_marker pidStr,
    hasDD_iff_marker⟩

/-- Witness for C5 at concrete inputs: `a$$b` with pid `12` expands to
`a12b`, and the marker-free `ab` is unchanged. -/
theorem c5_witness :
    stringReplace ['1', '2'] "a$$b".data = "a12b".data ∧
    stringReplace ['1', '2'] "ab".data = "ab".data := by
  have h := c5_stringReplace_replaces_all_markers ['1', '2']
  constructor
  · have h2 := h.2.1 ['a'] ['b'] (by decide) (by decide)
    simpa using h2
  · exact h.1 "ab".data (by decide)

/-! ### Claim C7 -/

/-- C7: with foreground-only mode active at the end of descriptor
construction, the produced descriptor's background flag is false, whatever
the token sequence (in particular with a trailing `&`). -/
theorem c7_fgMode_forces_foreground (pidStr : List Char)
    (toks : List (List Char)) (cmd : Cmd)
    (h : processInputToks pidStr true toks = some cmd) :
    cmd.isBackground = false := by
  cases toks with
  | nil => simp [processInputToks] at h
  | cons t0 rest =>
    simp only [processInputToks, Option.some.injEq] at h
    subst h
    rw [finalize_isBackground]
    simp

/-- Witness for C7: `a &` parsed in foreground-only mode is not
backgrounded. -/
theorem c7_witness :
    (finalize true (buildLoop ['1'] [ampTok] (initCmd ['1'] ['a']) 1)).isBackground
      = false :=
  c7_fgMode_forces_foreground ['1'] [['a'], ampTok] _ rfl

/-! ### Claim C8 -/

/-- C8: a descriptor still backgrounded after the post-loop fix-ups has
each redirection side that was not explicitly set defaulted to
`/dev/null`, while explicitly given paths are kept unchanged. -/
theorem c8_background_default_redirections (fg : Bool) (b : Cmd)
    (hbg : (finalize fg b).isBackground = true) :
    (b.inputFile = none → (finalize fg b).inputFile = some devNull) ∧
    (b.outputFile = none → (finalize fg b).outputFile = some devNull) ∧
    (∀ p, b.inputFile = some p → (finalize fg b).inputFile = some p) ∧
    (∀ p, b.outputFile = some p → (finalize fg b).outputFile = some p) := by
  have hb := hbg
  rw [finalize_isBackground] at hb
  simp only [Bool.and_eq_true, Bool.not_eq_true'] at hb
  obtain ⟨hfg, hbgd⟩ := hb
  subst hfg
  unfold finalize
  cases hin : b.inputFile <;> cases hout : b.outputFile <;>
    simp_all

/-- Witness for C8 at a concrete backgrounded descriptor with no explicit
redirections: both sides default to `/dev/null`. -/
theorem c8_witness :
    ((Cmd.mk [(0, ['a'])] none none true).inputFile = none →
      (finalize false (Cmd.mk [(0, ['a'])] none none true)).inputFile =
        some devNull) ∧
    ((Cmd.mk [(0, ['a'])] none none true).outputFile = none →
      (finalize false (Cmd.mk [(0, ['a'])] none none true)).outputFile =
        some devNull) ∧
    (∀ p, (Cmd.mk [(0, ['a'])] none none true).inputFile = some p →
      (finalize false (Cmd.mk [(0, ['a'])] none none true)).inputFile = some p) ∧
    (∀ p, (Cmd.mk [(0, ['a'])] none none true).outputFile = some p →
      (finalize false (Cmd.mk [(0, ['a'])] none none true)).outputFile = some p) :=
  c8_background_default_redirections false (Cmd.mk [(0, ['a'])] none none true)
    (by decide)

/-! ### Claim C10 -/

/-- C10: since the substituted pid string is all decimal digits, the output
of the expansion never contains the marker `$$`, and applying the
expansion twice equals applying it once. -/
theorem c10_expansion_output_marker_free (pidStr w : List Char)
    (hp : ∀ c ∈ pidStr, c.isDigit = true) :
    hasDD (stringReplace pidStr w) = false ∧
    stringReplace pidStr (stringReplace pidStr w) = stringReplace pidStr w := by
  have hp' : ∀ c ∈ pidStr, c ≠ '$' := by
    intro c hc he
    have hd := hp c hc
    rw [he] at hd
    exact absurd hd (by decide)
  exact ⟨hasDD_stringReplace pidStr hp' w, stringReplace_idem pidStr hp' w⟩

/-- Witness for C10 with pid string `42` and token `$$x$$`. -/
theorem c10_witness :
    hasDD (stringReplace ['4', '2'] "$$x$$".data) = false ∧
    stringReplace ['4', '2'] (stringReplace ['4', '2'] "$$x$$".data) =
      stringReplace ['4', '2'] "$$x$$".data :=
  c10_expansion_output_marker_free ['4', '2'] "$$x$$".data (by decide)

/-! ### Claim C1 -/

/-- The post-loop fix-ups never touch the `args` writes. -/
theorem finalize_argWrites (fg : Bool) (c : Cmd) :
    (finalize fg c).argWrites = c.argWrites := by
  unfold finalize
  cases fg <;> cases hb : c.isBackground <;>
    cases hin : c.inputFile <;> cases hout : c.outputFile <;>
    simp [hb, hin, hout]

/-- On plain tokens (not `<`, `>`, `&`) the loop stores one argument per
token at consecutive indices as long as `argPos ≤ ARGLENGTH` holds — note
the source guard `argPosition <= ARGLENGTH` admits the index `ARGLENGTH`
itself. -/
theorem buildLoop_plain_writes (pidStr t : List Char)
    (hl : ¬t = ltTok) (hg : ¬t = gtTok) (ha : ¬t = ampTok) :
    ∀ (n : Nat) (cmd : Cmd) (p : Nat), p + n ≤ ARGLENGTH + 1 →
      (buildLoop pidStr (List.replicate n t) cmd p).argWrites =
        cmd.argWrites ++
          (List.range' p n).map (fun i => (i, stringReplace pidStr t)) := by
  intro n
  induction n with
  | zero => intro cmd p _; simp [buildLoop]
  | succ m ih =>
    intro cmd p hp
    have hple : p ≤ ARGLENGTH := by omega
    rw [List.replicate_succ, List.range'_succ, buildLoop.eq_def]
    simp only [if_neg hl, if_neg hg, if_neg ha, if_pos hple]
    rw [ih _ (p + 1) (by omega)]
    simp [List.append_assoc]

/-- C1: the spec caps `arguments` at 512 entries after the program and says
further tokens are silently dropped without writing outside the 513-slot
storage.  The source guard is `argPosition <= ARGLENGTH` (513) instead of
`<`, so a program followed by 513 ordinary tokens performs the store
`args[513] = …` — index 513 of the 513-slot array, outside the storage —
and keeps 513 entries after the program.  On that failing input the
builder's write list is exactly one write per index 0…513: it contains a
write at index 513 with `ARGLENGTH ≤ 513`, and has 514 writes in all, 513
after the program. -/
theorem c1_arg_store_out_of_bounds :
    (processInputToks ['1'] false (List.replicate 514 ['a'])).map Cmd.argWrites
      = some ((List.range' 0 514).map (fun i => (i, ['a']))) ∧
    (513, ['a']) ∈ (List.range' 0 514).map (fun i => (i, ['a'])) ∧
    ((List.range' 0 514).map (fun i => (i, ['a']))).length = 514 ∧
    ARGLENGTH ≤ 513 := by
  refine ⟨?_, ?_, by simp, by decide⟩
  · have h514 : (514 : Nat) = 513 + 1 := rfl
    rw [h514, List.replicate_succ, List.range'_succ]
    simp only [processInputToks, Option.map_some']
    rw [finalize_argWrites,
      buildLoop_plain_writes ['1'] ['a'] (by decide) (by decide) (by decide)
        513 _ 1 (by decide)]
    simp [initCmd, stringReplace]
  · exact List.mem_map.mpr ⟨513, by simp, rfl⟩

/-! ### Claim C3 -/

/-- C3 counterexample: the line `" #x\n"` has `'#'` as its first
non-whitespace byte, yet `isValidLine` looks only at `line[0]` (a space),
so the shell builds a descriptor with program `#x` and would fork a child
for it — contradicting the claim as stated. -/
theorem c3_counterexample :
    ((" #x\n".data.dropWhile (fun c => c = ' ')).head? = some '#') ∧
    mainProcessLine ['1'] false " #x\n".data ≠ none ∧
    spawnsChild (mainProcessLine ['1'] false " #x\n".data) = true := by decide

/-- C3 amended: for every line whose **first byte** is `#` or a newline,
and every line with no tokens (empty or all whitespace), no descriptor is
produced and no child is spawned; a `#` preceded by whitespace is not
recognized as a comment. -/
theorem c3_comment_blank_no_descriptor (pidStr : List Char) (fgMode : Bool)
    (line : List Char)
    (h : line.head? = some '#' ∨ line.head? = some '\n' ∨ tokenize line = []) :
    mainProcessLine pidStr fgMode line = none ∧
    spawnsChild (mainProcessLine pidStr fgMode line) = false := by
  have hm : mainProcessLine pidStr fgMode line = none := by
    rcases h with h | h | h
    · cases line with
      | nil => simp at h
      | cons c l =>
        simp at h
        subst h
        simp [mainProcessLine, isValidLine]
    · cases line with
      | nil => simp at h
      | cons c l =>
        simp at h
        subst h
        simp [mainProcessLine, isValidLine]
    · unfold mainProcessLine
      split
      · simp [processInput, h, processInputToks]
      · rfl
  exact ⟨hm, by rw [hm]; rfl⟩

/-- Witness for C3 (amended) on the comment line `#c\n`. -/
theorem c3_witness :
    mainProcessLine ['1'] false "#c\n".data = none ∧
    spawnsChild (mainProcessLine ['1'] false "#c\n".data) = false :=
  c3_comment_blank_no_descriptor ['1'] false "#c\n".data (by decide)

/-! ### Claim C4 -/

/-- C4 counterexample: in the one-token sequence `&`, the token `&` is the
last token, but it is consumed as the program (`args[0]`), so the
background flag stays false — contradicting the claimed "background iff
`&` is the last token". -/
theorem c4_counterexample :
    ([ampTok].getLast? = some ampTok) ∧
    (processInputToks ['1'] false [ampTok]).map Cmd.isBackground =
      some false := by decide

/-- C4 amended: outside foreground-only mode, the background flag is true
iff, among the tokens after the program, the last token is `&` and it is
not consumed as the filename operand of a `<` or `>` immediately before it
(`lastTokenIsOperatorAmp`); in particular a sole `&` (which becomes the
program) and an `&` followed by further tokens leave background false. -/
theorem c4_background_iff_trailing_amp (pidStr t0 : List Char)
    (rest : List (List Char)) (cmd : Cmd)
    (h : processInputToks pidStr false (t0 :: rest) = some cmd) :
    (cmd.isBackground = true ↔ lastTokenIsOperatorAmp rest = true) := by
  simp only [processInputToks, Option.some.injEq] at h
  subst h
  rw [finalize_isBackground, buildLoop_isBackground]
  simp [initCmd]

/-- Witness for C4 (amended): `a &` is backgrounded. -/
theorem c4_witness :
    ((finalize false (buildLoop ['1'] [ampTok] (initCmd ['1'] ['a']) 1)).isBackground
        = true ↔ lastTokenIsOperatorAmp [ampTok] = true) :=
  c4_background_iff_trailing_amp ['1'] ['a'] [ampTok] _ rfl

/-! ### Claim C6 -/

/-- A pid not in the table leaves the clearing loop without effect. -/
theorem clearChildSlot_of_not_mem :
    ∀ (tbl : List Int) (p : Int), p ∉ tbl → clearChildSlot tbl p = tbl := by
  intro tbl p
  induction tbl with
  | nil => intro _; rfl
  | cons c rest ih =>
    intro hp
    simp only [List.mem_cons, not_or] at hp
    have hcp : ¬(c = p) := fun h => hp.1 h.symm
    simp only [clearChildSlot, if_neg hcp, ih hp.2]

/-- A pid present in the table has exactly its first slot zeroed by the
clearing loop. -/
theorem clearChildSlot_of_mem :
    ∀ (tbl : List Int) (p : Int), p ∈ tbl →
      ∃ l1 l2, tbl = l1 ++ p :: l2 ∧ p ∉ l1 ∧
        clearChildSlot tbl p = l1 ++ 0 :: l2 := by
  intro tbl p
  induction tbl with
  | nil => intro h; simp at h
  | cons c rest ih =>
    intro hp
    by_cases hc : c = p
    · subst hc
      exact ⟨[], rest, rfl, by simp, by simp [clearChildSlot]⟩
    · have hpr : p ∈ rest := by
        rcases List.mem_cons.mp hp with h | h
        · exact absurd h.symm hc
        · exact h
      obtain ⟨l1, l2, heq, hnm, hclr⟩ := ih hpr
      refine ⟨c :: l1, l2, by simp [heq], ?_, ?_⟩
      · simp only [List.mem_cons, not_or]
        exact ⟨fun h => hc h.symm, hnm⟩
      · simp [clearChildSlot, hc, hclr]

/-- C6: one invocation of the reap handler consumes every reported
terminated child (the non-blocking wait loop runs until none remain): the
queue cursor advances by one per reaped child, the k-th slot written holds
exactly the formatted completion message for the k-th child, previously
queued slots are untouched, and the job table results from clearing each
reaped pid's slot in order — where clearing zeroes the pid's first slot if
the pid is present and does nothing otherwise. -/
theorem c6_handleSIGCHLD_reaps_all :
    ∀ (zombies : List (Int × WStatus)) (st st' : ShellState),
      st.queuePosition + zombies.length ≤ st.msgQueue.length →
      handleSIGCHLD zombies st = some st' →
      (st'.queuePosition = st.queuePosition + zombies.length ∧
       st'.msgQueue.length = st.msgQueue.length ∧
       (∀ i, i < st.queuePosition → st'.msgQueue[i]? = st.msgQueue[i]?) ∧
       (∀ k, (hk : k < zombies.length) →
         st'.msgQueue[st.queuePosition + k]? =
           some (some (waitMessage (zombies.get ⟨k, hk⟩).1
             (zombies.get ⟨k, hk⟩).2))) ∧
       st'.children =
         zombies.foldl (fun tbl z => clearChildSlot tbl z.1) st.children) ∧
      (∀ (tbl : List Int) (p : Int), p ∉ tbl → clearChildSlot tbl p = tbl) ∧
      (∀ (tbl : List Int) (p : Int), p ∈ tbl →
        ∃ l1 l2, tbl = l1 ++ p :: l2 ∧ p ∉ l1 ∧
          clearChildSlot tbl p = l1 ++ 0 :: l2) := by
  intro zombies
  induction zombies with
  | nil =>
    intro st st' _ hrun
    simp only [handleSIGCHLD, Option.some.injEq] at hrun
    subst hrun
    exact ⟨⟨by simp, rfl, fun i _ => rfl, fun k hk => absurd hk (by simp),
      by simp⟩, clearChildSlot_of_not_mem, clearChildSlot_of_mem⟩
  | cons z rest ih =>
    intro st st' hroom hrun
    obtain ⟨p, w⟩ := z
    simp only [List.length_cons] at hroom
    have hlt : st.queuePosition < st.msgQueue.length := by omega
    simp only [handleSIGCHLD, pushMessageQueue, if_pos hlt] at hrun
    have hroom1 :
        (ShellState.mk (st.msgQueue.set st.queuePosition
            (some (waitMessage p w))) (st.queuePosition + 1)
            (clearChildSlot st.children p)).queuePosition + rest.length ≤
          (ShellState.mk (st.msgQueue.set st.queuePosition
            (some (waitMessage p w))) (st.queuePosition + 1)
            (clearChildSlot st.children p)).msgQueue.length := by
      simp
      omega
    obtain ⟨⟨h1, h2, h3, h4, h5⟩, -, -⟩ := ih _ st' hroom1 hrun
    simp only [List.length_set] at h2
    refine ⟨⟨?_, ?_, ?_, ?_, ?_⟩, clearChildSlot_of_not_mem,
      clearChildSlot_of_mem⟩
    · simp only [h1]
      simp
      omega
    · simpa using h2
    · intro i hi
      have := h3 i (by simpa using Nat.lt_succ_of_lt hi)
      simp only [this]
      exact List.getElem?_set_ne (by omega)
    · intro k hk
      cases k with
      | zero =>
        have := h3 st.queuePosition (by simp)
        simp only [Nat.add_zero, this]
        simp [List.getElem?_set_self hlt]
      | succ j =>
        have hj : j < rest.length := by
          simpa using Nat.lt_of_succ_lt_succ hk
        have := h4 j hj
        simp only [ShellState.mk.injEq] at this ⊢
        have harith : st.queuePosition + (j + 1) = st.queuePosition + 1 + j := by
          omega
        rw [harith]
        simpa using this
    · simpa using h5

/-- Witness for C6: reaping one child with pid 5 that exited with value 0,
starting from an empty queue and a table whose first slot holds 5. -/
theorem c6_witness :
    (ShellState.mk ((List.replicate 50 (none : Option String)).set 0
        (some (waitMessage 5 (WStatus.exited 0)))) (0 + 1)
        (clearChildSlot (5 :: List.replicate 199 0) 5)).queuePosition =
      0 + (1 : Nat) :=
  ((c6_handleSIGCHLD_reaps_all [((5 : Int), WStatus.exited 0)]
    (ShellState.mk (List.replicate 50 none) 0 (5 :: List.replicate 199 0))
    (ShellState.mk ((List.replicate 50 (none : Option String)).set 0
        (some (waitMessage 5 (WStatus.exited 0)))) (0 + 1)
        (clearChildSlot (5 :: List.replicate 199 0) 5))
    (by decide) rfl).1).1

/-! ### Claim C9 -/

/-- The drain loop prints exactly the occupied slots, in index order. -/
theorem mem_drainSlots (slots : List (Option String)) (s : String) :
    s ∈ drainSlots slots ↔ some s ∈ slots := by
  induction slots with
  | nil => simp [drainSlots]
  | cons o rest ih => cases o <;> simp [drainSlots, ih]

/-- The kill loop keeps exactly the non-sentinel pids, in order. -/
theorem killLoop_eq_filter (l : List Int) :
    killLoop l = l.filter (fun x => decide (x ≠ 0)) := by
  induction l with
  | nil => rfl
  | cons c rest ih =>
    by_cases hc : c = 0
    · subst hc; simp [killLoop, ih]
    · simp [killLoop, hc, ih]

/-- The kill loop signals exactly the non-sentinel pids. -/
theorem mem_killLoop (l : List Int) (p : Int) :
    p ∈ killLoop l ↔ p ∈ l ∧ p ≠ 0 := by
  simp [killLoop_eq_filter, List.mem_filter]

/-- An index holding a print event lies within the print prefix. -/
theorem exitShell_printMsg_lt (st : ShellState) (i : Nat) (s : String)
    (h : (exitShell st)[i]? = some (Event.printMsg s)) :
    i < ((drainSlots st.msgQueue).map Event.printMsg).length := by
  by_contra hge
  rw [Nat.not_lt] at hge
  rw [exitShell, List.append_assoc,
    List.getElem?_append_right hge] at h
  have hmem := List.getElem?_mem h
  simp only [List.mem_append, List.mem_map, List.mem_singleton] at hmem
  rcases hmem with ⟨q, -, hq⟩ | hq <;> exact absurd hq (by simp)

/-- An index holding a kill event lies past the print prefix. -/
theorem exitShell_sendSIGTERM_ge (st : ShellState) (j : Nat) (p : Int)
    (h : (exitShell st)[j]? = some (Event.sendSIGTERM p)) :
    ((drainSlots st.msgQueue).map Event.printMsg).length ≤ j := by
  by_contra hlt
  rw [Nat.not_le] at hlt
  rw [exitShell, List.append_assoc, List.getElem?_append_left hlt] at h
  have hmem := List.getElem?_mem h
  simp only [List.mem_map] at hmem
  obtain ⟨q, -, hq⟩ := hmem
  exact absurd hq (by simp)

/-- C9: shutdown first drains and prints the queued notifications, then
sends the termination signal to exactly the pids still occupying job-table
slots (without waiting on them), and ends with the fixed exit code 3:
every print event precedes every kill event, the final event is
`exitWith 3`, and any exit event is that final one. -/
theorem c9_exitShell_order_and_contents (st : ShellState) :
    ((exitShell st).getLast? = some (Event.exitWith 3)) ∧
    (∀ s, Event.printMsg s ∈ exitShell st ↔ some s ∈ st.msgQueue) ∧
    (∀ p, Event.sendSIGTERM p ∈ exitShell st ↔ (p ∈ st.children ∧ p ≠ 0)) ∧
    (∀ (i j : Nat) (s : String) (p : Int),
      (exitShell st)[i]? = some (Event.printMsg s) →
      (exitShell st)[j]? = some (Event.sendSIGTERM p) → i < j) ∧
    (∀ (i n : Nat), (exitShell st)[i]? = some (Event.exitWith n) →
      n = 3 ∧ i + 1 = (exitShell st).length) := by
  refine ⟨?_, ?_, ?_, ?_, ?_⟩
  · rw [exitShell]
    exact List.getLast?_concat _
  · intro s
    simp [exitShell, mem_drainSlots]
  · intro p
    simp [exitShell, mem_killLoop]
  · intro i j s p hi hj
    exact Nat.lt_of_lt_of_le (exitShell_printMsg_lt st i s hi)
      (exitShell_sendSIGTERM_ge st j p hj)
  · intro i n h
    have hlen : (exitShell st).length =
        ((drainSlots st.msgQueue).map Event.printMsg).length +
          ((killLoop st.children).map Event.sendSIGTERM).length + 1 := by
      simp [exitShell]
      omega
    by_cases hlt : i <
        ((drainSlots st.msgQueue).map Event.printMsg ++
          (killLoop st.children).map Event.sendSIGTERM).length
    · exfalso
      rw [exitShell, List.getElem?_append_left hlt] at h
      have hmem := List.getElem?_mem h
      simp only [List.mem_append, List.mem_map] at hmem
      rcases hmem with ⟨q, -, hq⟩ | ⟨q, -, hq⟩ <;> exact absurd hq (by simp)
    · rw [Nat.not_lt] at hlt
      rw [exitShell, List.getElem?_append_right hlt] at h
      rcases Nat.lt_or_ge
          (i - ((drainSlots st.msgQueue).map Event.printMsg ++
            (killLoop st.children).map Event.sendSIGTERM).length) 1 with hk | hk
      · have hk0 : i - ((drainSlots st.msgQueue).map Event.printMsg ++
            (killLoop st.children).map Event.sendSIGTERM).length = 0 := by omega
        rw [hk0] at h
        simp at h
        subst h
        constructor
        · rfl
        · simp only [hlen, List.length_append] at *
          omega
      · exfalso
        rw [List.getElem?_eq_none (by simpa using hk)] at h
        exact Option.noConfusion h

/-- Witness-style check of C9 at a concrete state (not required — the
theorem has no hypotheses — but kept as a concrete instantiation):
one queued message and one live pid. -/
theorem c9_witness :
    (exitShell (ShellState.mk [some "m", none] 1 [7, 0])).getLast? =
      some (Event.exitWith 3) :=
  (c9_exitShell_order_and_contents (ShellState.mk [some "m", none] 1 [7, 0])).1

end Smallsh
